import Mathlib

/-!
Verification of `assemble.py`, a two-pass assembler for a 64-bit micro-RISC
target.  Source text is modelled as `List Char` (Python strings are
character sequences); Python integers are unbounded, so machine words are
plain `Nat` with the explicit masking the source performs.
-/

namespace Assembler

/-- Errors the assembler can raise.  The Python source signals these as
`ValueError` / `IndexError` exceptions; the constructors record the
distinct raise sites. -/
inductive AsmErr : Type where
  /-- Raise site `first_pass`: ValueError "Duplicate label ...". -/
  | duplicateLabel : AsmErr
  /-- Raise site `regnum`: ValueError "Bad register: ...". -/
  | badRegister : AsmErr
  /-- Raise site: a failing `int(...)` conversion inside `parse_imm` (ValueError). -/
  | badValue : AsmErr
  /-- Raise site `second_pass`: ValueError "Unknown op/line: ...". -/
  | unknownOp : AsmErr
  /-- Raise site: an out-of-range `parts[i]` list access (Python IndexError). -/
  | indexError : AsmErr
  /-- Raise site `unescape_string`: a UnicodeDecodeError from
  `decode("unicode_escape")` on a malformed escape sequence. -/
  | unicodeError : AsmErr
deriving DecidableEq, Repr

/-- Bit packing of one 64-bit instruction word, from `emit_inst_word`:
opcode into bits 63:60, rd into 59:57, rs into 56:54, reserved span zero,
the 16-bit immediate in the low bits, all masked to 64 bits at the end. -/
def emit_inst_word (opcode rd rs imm16 : Nat) : Nat :=
  (((opcode &&& 0xF) <<< 60) ||| ((rd &&& 0x7) <<< 57) ||| ((rs &&& 0x7) <<< 54) |||
      (imm16 &&& 0xFFFF)) &&&
    0xFFFFFFFFFFFFFFFF

/-- Opcode field of an encoded word: bits 63:60 of the profile layout. -/
def decodeOpcode (w : Nat) : Nat := (w >>> 60) &&& 0xF

/-- Destination-register field of an encoded word: bits 59:57. -/
def decodeRd (w : Nat) : Nat := (w >>> 57) &&& 0x7

/-- Source-register field of an encoded word: bits 56:54. -/
def decodeRs (w : Nat) : Nat := (w >>> 54) &&& 0x7

/-- Immediate field of an encoded word: the low 16 bits. -/
def decodeImm (w : Nat) : Nat := w &&& 0xFFFF

theorem lor_disjoint_eq_add {n x y : Nat} (hx : x % 2 ^ n = 0) (hy : y < 2 ^ n) :
    x ||| y = x + y := by
  apply Nat.eq_of_testBit_eq
  intro i
  rcases Nat.lt_or_ge i n with hi | hi
  · have hxi : x.testBit i = false := by
      have h := Nat.testBit_mod_two_pow x n i
      rw [hx] at h
      simpa [hi] using h.symm
    have hsum : (x + y) % 2 ^ n = y := by
      rw [Nat.add_mod, hx, Nat.mod_eq_of_lt hy]
      simpa using Nat.mod_eq_of_lt hy
    have h2 := Nat.testBit_mod_two_pow (x + y) n i
    rw [hsum] at h2
    simp only [Nat.testBit_lor, hxi, Bool.false_or]
    simpa [hi] using h2
  · obtain ⟨j, rfl⟩ := Nat.exists_eq_add_of_le hi
    have hyi : y.testBit (n + j) = false :=
      Nat.testBit_lt_two_pow (lt_of_lt_of_le hy (Nat.pow_le_pow_right (by norm_num) (Nat.le_add_right n j)))
    obtain ⟨k, hk⟩ := Nat.dvd_of_mod_eq_zero hx
    have pos : 0 < 2 ^ n := Nat.pos_pow_of_pos n (by norm_num)
    have hdiv : (x + y) / 2 ^ n = x / 2 ^ n := by
      rw [hk, Nat.mul_add_div pos, Nat.div_eq_of_lt hy, Nat.mul_div_cancel_left _ pos]
      omega
    have hx' : (x + y).testBit (n + j) = x.testBit (n + j) := by
      have e1 : (x + y).testBit (n + j) = ((x + y) >>> n).testBit j := by
        rw [Nat.testBit_shiftRight]
      have e2 : x.testBit (n + j) = (x >>> n).testBit j := by
        rw [Nat.testBit_shiftRight]
      rw [e1, e2, Nat.shiftRight_eq_div_pow, Nat.shiftRight_eq_div_pow, hdiv]
    simp [Nat.testBit_lor, hyi, hx']

theorem and_mask_15 (x : Nat) : x &&& 15 = x % 16 := by
  have h := Nat.and_pow_two_sub_one_eq_mod x 4
  norm_num at h
  exact h

theorem and_mask_7 (x : Nat) : x &&& 7 = x % 8 := by
  have h := Nat.and_pow_two_sub_one_eq_mod x 3
  norm_num at h
  exact h

theorem and_mask_255 (x : Nat) : x &&& 255 = x % 256 := by
  have h := Nat.and_pow_two_sub_one_eq_mod x 8
  norm_num at h
  exact h

theorem and_mask_65535 (x : Nat) : x &&& 65535 = x % 65536 := by
  have h := Nat.and_pow_two_sub_one_eq_mod x 16
  norm_num at h
  exact h

theorem and_mask_word (x : Nat) : x &&& 0xFFFFFFFFFFFFFFFF = x % 18446744073709551616 := by
  have h := Nat.and_pow_two_sub_one_eq_mod x 64
  norm_num at h
  exact h

/-- Arithmetic form of `emit_inst_word`: the four fields occupy disjoint
bit spans, so the bitwise packing is plain positional arithmetic. -/
theorem emit_inst_word_eq (opcode rd rs imm16 : Nat) :
    emit_inst_word opcode rd rs imm16 =
      opcode % 16 * 1152921504606846976 + rd % 8 * 144115188075855872 +
        rs % 8 * 18014398509481984 + imm16 % 65536 := by
  unfold emit_inst_word
  rw [and_mask_15, and_mask_7 rd, and_mask_7 rs, and_mask_65535, Nat.shiftLeft_eq,
    Nat.shiftLeft_eq, Nat.shiftLeft_eq]
  have p60 : (2 : Nat) ^ 60 = 1152921504606846976 := by norm_num
  have p57 : (2 : Nat) ^ 57 = 144115188075855872 := by norm_num
  have p54 : (2 : Nat) ^ 54 = 18014398509481984 := by norm_num
  rw [p60, p57, p54]
  have hmo : opcode % 16 < 16 := Nat.mod_lt _ (by norm_num)
  have hmr : rd % 8 < 8 := Nat.mod_lt _ (by norm_num)
  have hms : rs % 8 < 8 := Nat.mod_lt _ (by norm_num)
  have hmi : imm16 % 65536 < 65536 := Nat.mod_lt _ (by norm_num)
  have e1 : opcode % 16 * 1152921504606846976 ||| rd % 8 * 144115188075855872 =
      opcode % 16 * 1152921504606846976 + rd % 8 * 144115188075855872 := by
    apply lor_disjoint_eq_add (n := 60) <;> · rw [p60]; omega
  rw [e1]
  have e2 : opcode % 16 * 1152921504606846976 + rd % 8 * 144115188075855872 |||
        rs % 8 * 18014398509481984 =
      opcode % 16 * 1152921504606846976 + rd % 8 * 144115188075855872 +
        rs % 8 * 18014398509481984 := by
    apply lor_disjoint_eq_add (n := 57) <;> · rw [p57]; omega
  rw [e2]
  have e3 : opcode % 16 * 1152921504606846976 + rd % 8 * 144115188075855872 +
        rs % 8 * 18014398509481984 ||| imm16 % 65536 =
      opcode % 16 * 1152921504606846976 + rd % 8 * 144115188075855872 +
        rs % 8 * 18014398509481984 + imm16 % 65536 := by
    apply lor_disjoint_eq_add (n := 54) <;> · rw [p54]; omega
  rw [e3, and_mask_word]
  omega

theorem decodeOpcode_emit (opcode rd rs imm16 : Nat) :
    decodeOpcode (emit_inst_word opcode rd rs imm16) = opcode % 16 := by
  rw [emit_inst_word_eq]
  unfold decodeOpcode
  rw [Nat.shiftRight_eq_div_pow, and_mask_15]
  have p60 : (2 : Nat) ^ 60 = 1152921504606846976 := by norm_num
  rw [p60]
  omega

theorem decodeRd_emit (opcode rd rs imm16 : Nat) :
    decodeRd (emit_inst_word opcode rd rs imm16) = rd % 8 := by
  rw [emit_inst_word_eq]
  unfold decodeRd
  rw [Nat.shiftRight_eq_div_pow, and_mask_7]
  have p57 : (2 : Nat) ^ 57 = 144115188075855872 := by norm_num
  rw [p57]
  omega

theorem decodeRs_emit (opcode rd rs imm16 : Nat) :
    decodeRs (emit_inst_word opcode rd rs imm16) = rs % 8 := by
  rw [emit_inst_word_eq]
  unfold decodeRs
  rw [Nat.shiftRight_eq_div_pow, and_mask_7]
  have p54 : (2 : Nat) ^ 54 = 18014398509481984 := by norm_num
  rw [p54]
  omega

theorem decodeImm_emit (opcode rd rs imm16 : Nat) :
    decodeImm (emit_inst_word opcode rd rs imm16) = imm16 % 65536 := by
  rw [emit_inst_word_eq]
  unfold decodeImm
  rw [and_mask_65535]
  omega

/-- Characters Python's `\s` (ASCII range) and `str.strip` treat as
whitespace, the separator control characters U+001C..U+001F included. -/
def isPySpace (c : Char) : Bool :=
  c = ' ' || c = '\t' || c = '\n' || c = '\r' || c = '\x0b' || c = '\x0c' ||
    ('\x1c' ≤ c && c ≤ '\x1f')

/-- Python `str.strip()`: drop leading and trailing whitespace. -/
def pyStrip (cs : List Char) : List Char :=
  ((cs.dropWhile isPySpace).reverse.dropWhile isPySpace).reverse

/-- Drop trailing Python whitespace only (the `\s*$` part of a regex). -/
def trimRightSpaces (cs : List Char) : List Char := (cs.reverse.dropWhile isPySpace).reverse

/-- Python `str.lower()` (ASCII model). -/
def pyLower (cs : List Char) : List Char := cs.map Char.toLower

/-- Python `str.upper()` (ASCII model). -/
def pyUpper (cs : List Char) : List Char := cs.map Char.toUpper

/-- Separator class of the instruction tokenizer `re.split(r'[,\s]+', s)`. -/
def isSep (c : Char) : Bool := c = ',' || isPySpace c

mutual
/-- Token state of the splitter modelling `re.split(r'[,\s]+', s)`:
`cur` holds the (reversed) token read so far. -/
def tokSplit : List Char → List Char → List (List Char)
  | [], cur => [cur.reverse]
  | c :: cs, cur =>
    if isSep c then cur.reverse :: tokSkip cs else tokSplit cs (c :: cur)

/-- Separator-run state of the splitter; a run reaching the end of the
line yields a final empty token, exactly as `re.split` does. -/
def tokSkip : List Char → List (List Char)
  | [] => [[]]
  | c :: cs => if isSep c then tokSkip cs else tokSplit cs [c]
end

/-- Tokenisation of one instruction line: `re.split(r'[,\s]+', s)`. -/
def tokenize (cs : List Char) : List (List Char) := tokSplit cs []

/-- Register-operand parser `regnum`, regex `^[rR]?([0-7])$`: an optional
`r`/`R` then one digit 0..7; anything else raises ValueError. -/
def regnum (r : List Char) : Except AsmErr Nat :=
  match r with
  | [c] => if '0' ≤ c && c ≤ '7' then .ok (c.toNat - 48) else .error .badRegister
  | [p, c] =>
    if (p = 'r' || p = 'R') && ('0' ≤ c && c ≤ '7') then .ok (c.toNat - 48)
    else .error .badRegister
  | _ => .error .badRegister

/-- Decimal digit test (ASCII). -/
def isDecDigit (c : Char) : Bool := '0' ≤ c && c ≤ '9'

/-- Binary digit test. -/
def isBinDigit (c : Char) : Bool := c = '0' || c = '1'

/-- Hexadecimal digit test (ASCII). -/
def isHexDigit (c : Char) : Bool :=
  isDecDigit c || ('a' ≤ c && c ≤ 'f') || ('A' ≤ c && c ≤ 'F')

/-- Octal digit test. -/
def isOctDigit (c : Char) : Bool := '0' ≤ c && c ≤ '7'

/-- Value of one digit character (decimal or hexadecimal). -/
def digitVal (c : Char) : Nat :=
  if isDecDigit c then c.toNat - 48
  else if 'a' ≤ c && c ≤ 'f' then c.toNat - 87
  else c.toNat - 55

/-- Tail of a digit run as Python `int()` accepts it: single underscores
may separate digits, and the run must end with a digit. -/
def digitsAux (isD : Char → Bool) (base acc : Nat) : List Char → Option Nat
  | [] => some acc
  | c :: rest =>
    if c = '_' then
      match rest with
      | [] => none
      | d :: rest' =>
        if isD d then digitsAux isD base (acc * base + digitVal d) rest' else none
    else if isD c then digitsAux isD base (acc * base + digitVal c) rest else none

/-- One digit run (at least one digit), Python `int()` style. -/
def digitRun (isD : Char → Bool) (base : Nat) : List Char → Option Nat
  | [] => none
  | c :: rest => if isD c then digitsAux isD base (digitVal c) rest else none

/-- After a base marker, Python `int()` additionally allows one underscore
before the first digit (`0x_10`). -/
def digitRunAfterMark (isD : Char → Bool) (base : Nat) (cs : List Char) : Option Nat :=
  match cs with
  | c :: rest => if c = '_' then digitRun isD base rest else digitRun isD base (c :: rest)
  | [] => digitRun isD base []

/-- Magnitude part of Python `int(s, base)` (ASCII model): an optional
`0x`/`0X` (base 16) or `0b`/`0B` (base 2) marker, then an
underscore-grouped digit run. -/
def pyIntNum (isD : Char → Bool) (base : Nat) (mark : Option (Char × Char))
    (cs : List Char) : Option Nat :=
  match mark, cs with
  | some (m1, m2), a :: c :: rest =>
    if a = '0' && (c = m1 || c = m2) then digitRunAfterMark isD base rest
    else digitRun isD base (a :: c :: rest)
  | _, _ => digitRun isD base cs

/-- Model of Python's built-in `int(s, base)` on ASCII, whitespace-free
input (every call site strips first): an optional sign, an optional base
marker, then underscore-grouped digits of the base. -/
def pythonInt (isD : Char → Bool) (base : Nat) (mark : Option (Char × Char))
    (cs : List Char) : Option Int :=
  match cs with
  | c :: rest =>
    if c = '-' then (pyIntNum isD base mark rest).map (fun n => -(Int.ofNat n))
    else if c = '+' then (pyIntNum isD base mark rest).map (fun n => Int.ofNat n)
    else (pyIntNum isD base mark (c :: rest)).map (fun n => Int.ofNat n)
  | [] => (pyIntNum isD base mark []).map (fun n => Int.ofNat n)

/-- Python `s.startswith("0x") or s.startswith("0X")`. -/
def startsWith0x (t : List Char) : Bool :=
  match t with
  | a :: c :: _ => a = '0' && (c = 'x' || c = 'X')
  | _ => false

/-- Immediate parser `parse_imm`: strip, then dispatch on a leading
`0x`/`0X` (hexadecimal), a trailing `b` (binary), or plain decimal; a
failing conversion is the InvalidImmediate condition (ValueError). -/
def parse_imm (s : List Char) : Except AsmErr Int :=
  let t := pyStrip s
  let conv : Option Int → Except AsmErr Int := fun r =>
    match r with
    | some v => .ok v
    | none => .error .badValue
  if startsWith0x t then conv (pythonInt isHexDigit 16 (some ('x', 'X')) t)
  else if t.getLast? = some 'b' then conv (pythonInt isBinDigit 2 (some ('b', 'B')) t.dropLast)
  else conv (pythonInt isDecDigit 10 none t)

/-- Model of `unescape_string`, that is
`bytes(s, "utf8").decode("unicode_escape")`, on ASCII directive text.
Standard escapes, octal escapes and well-formed `\xhh`, `\uhhhh` and
`\Uhhhhhhhh` escapes are decoded; an unknown escape such as `\q` keeps its
backslash and decoding continues.  The result is `none` — CPython raises
UnicodeDecodeError there — for a truncated `\x`/`\u`/`\U` escape, a `\U`
value beyond U+10FFFF, a `\N` escape (its name lookup needs the Unicode
name table, outside this model) and a lone backslash ending the text.  A
decoded code point Lean's `Char` cannot carry (a lone surrogate) becomes
NUL; only that character's identity differs from CPython, never success,
order or count. -/
def unescapeString : List Char → Option (List Char)
  | [] => some []
  | ['\\'] => none
  | '\\' :: 'n' :: r => (unescapeString r).map (fun t => '\n' :: t)
  | '\\' :: 't' :: r => (unescapeString r).map (fun t => '\t' :: t)
  | '\\' :: 'r' :: r => (unescapeString r).map (fun t => '\r' :: t)
  | '\\' :: 'a' :: r => (unescapeString r).map (fun t => '\x07' :: t)
  | '\\' :: 'b' :: r => (unescapeString r).map (fun t => '\x08' :: t)
  | '\\' :: 'f' :: r => (unescapeString r).map (fun t => '\x0c' :: t)
  | '\\' :: 'v' :: r => (unescapeString r).map (fun t => '\x0b' :: t)
  | '\\' :: '\\' :: r => (unescapeString r).map (fun t => '\\' :: t)
  | '\\' :: '\'' :: r => (unescapeString r).map (fun t => '\'' :: t)
  | '\\' :: '"' :: r => (unescapeString r).map (fun t => '"' :: t)
  | '\\' :: '\n' :: r => unescapeString r
  | '\\' :: 'N' :: _ => none
  | '\\' :: 'x' :: r =>
    match r with
    | h1 :: h2 :: r' =>
      if isHexDigit h1 && isHexDigit h2 then
        (unescapeString r').map (fun t => Char.ofNat (digitVal h1 * 16 + digitVal h2) :: t)
      else none
    | _ => none
  | '\\' :: 'u' :: r =>
    match r with
    | h1 :: h2 :: h3 :: h4 :: r' =>
      if isHexDigit h1 && isHexDigit h2 && isHexDigit h3 && isHexDigit h4 then
        (unescapeString r').map (fun t =>
          Char.ofNat
            (((digitVal h1 * 16 + digitVal h2) * 16 + digitVal h3) * 16 + digitVal h4) :: t)
      else none
    | _ => none
  | '\\' :: 'U' :: r =>
    match r with
    | h1 :: h2 :: h3 :: h4 :: h5 :: h6 :: h7 :: h8 :: r' =>
      if isHexDigit h1 && isHexDigit h2 && isHexDigit h3 && isHexDigit h4 && isHexDigit h5 &&
          isHexDigit h6 && isHexDigit h7 && isHexDigit h8 then
        if ((((((digitVal h1 * 16 + digitVal h2) * 16 + digitVal h3) * 16 +
              digitVal h4) * 16 + digitVal h5) * 16 + digitVal h6) * 16 + digitVal h7) * 16 +
            digitVal h8 ≤ 0x10FFFF then
          (unescapeString r').map (fun t =>
            Char.ofNat (((((((digitVal h1 * 16 + digitVal h2) * 16 + digitVal h3) * 16 +
              digitVal h4) * 16 + digitVal h5) * 16 + digitVal h6) * 16 + digitVal h7) * 16 +
              digitVal h8) :: t)
        else none
      else none
    | _ => none
  | '\\' :: c1 :: r =>
    if isOctDigit c1 then
      match r with
      | c2 :: c3 :: r' =>
        if isOctDigit c2 && isOctDigit c3 then
          (unescapeString r').map
            (fun t => Char.ofNat ((digitVal c1 * 8 + digitVal c2) * 8 + digitVal c3) :: t)
        else if isOctDigit c2 then
          (unescapeString (c3 :: r')).map
            (fun t => Char.ofNat (digitVal c1 * 8 + digitVal c2) :: t)
        else (unescapeString (c2 :: c3 :: r')).map (fun t => Char.ofNat (digitVal c1) :: t)
      | [c2] =>
        if isOctDigit c2 then some [Char.ofNat (digitVal c1 * 8 + digitVal c2)]
        else (unescapeString [c2]).map (fun t => Char.ofNat (digitVal c1) :: t)
      | [] => some [Char.ofNat (digitVal c1)]
    else (unescapeString r).map (fun t => '\\' :: c1 :: t)
  | c :: r => (unescapeString r).map (fun t => c :: t)

/-- Emission units produced by the first pass (the tagged tuples
`("BYTE", ch)`, `("HALT", None)`, `("INST", s)` of the source). -/
inductive EUnit : Type where
  | BYTE : Char → EUnit
  | HALT : EUnit
  | INST : List Char → EUnit
deriving DecidableEq, Repr

/-- Word cost of one emission unit: a BYTE lowers to two words, HALT and
INST to one — the common `pc` increment of both passes. -/
def unitSize : EUnit → Nat
  | .BYTE _ => 2
  | .HALT => 1
  | .INST _ => 1

/-- Word characters of the label regex (ASCII `\w`). -/
def isWordChar (c : Char) : Bool := c.isAlpha || c.isDigit || c = '_'

/-- Classifier for label lines, regex `^\.?[A-Za-z_]\w*:$`; returns the
recorded name `s[:-1]` (any leading dot included, as in the source). -/
def labelParse (cs : List Char) : Option (List Char) :=
  if cs.getLast? = some ':' then
    let body := cs.dropLast
    let core :=
      match body with
      | '.' :: r => r
      | r => r
    match core with
    | [] => none
    | c :: r => if (c.isAlpha || c = '_') && r.all isWordChar then some body else none
  else none

/-- Quoted-argument part of the string-directive regex, `"(.*)"\s*$`:
the text after the first quote, up to the last quote that is followed only
by whitespace; `.` does not match a newline. -/
def stringDirQuoted (isAsciz : Bool) : List Char → Option (Bool × List Char)
  | '"' :: rest =>
    let body := trimRightSpaces rest
    if body.getLast? = some '"' && !(body.dropLast.contains '\n') then
      some (isAsciz, body.dropLast)
    else none
  | _ => none

/-- Whitespace between the directive keyword and its argument (`\s+`). -/
def stringDirAfterKey (isAsciz : Bool) : List Char → Option (Bool × List Char)
  | c :: r => if isPySpace c then stringDirQuoted isAsciz (r.dropWhile isPySpace) else none
  | [] => none

/-- Classifier for string directives, regex
`^\.(string|asciz)\s+"(.*)"\s*$`; yields the kind and the raw quoted text. -/
def stringDirParse (cs : List Char) : Option (Bool × List Char) :=
  match cs with
  | '.' :: rest =>
    if rest.take 6 = "string".toList then stringDirAfterKey false (rest.drop 6)
    else if rest.take 5 = "asciz".toList then stringDirAfterKey true (rest.drop 5)
    else none
  | _ => none

/-- The Pass-1 scan (`first_pass`): classify each line, record label
addresses, expand directives into emission units, and thread the program
counter.  Each emitted unit is annotated with the `pc` value it was
assigned; `Prod.fst` over the result recovers the source's `expanded`
list, and the final `pc` is returned as instrumentation. -/
def expandStr : List Char → Nat → List (EUnit × Nat) × Nat
  | [], pc => ([], pc)
  | c :: cs, pc =>
    let rest := expandStr cs (pc + 2)
    ((EUnit.BYTE c, pc) :: rest.1, rest.2)

/-- Loop body of `first_pass`; see `expandStr` and `first_pass`. -/
def firstPassAux :
    List (List Char) → Nat → List (List Char × Nat) → List (EUnit × Nat) →
      Except AsmErr (List (EUnit × Nat) × List (List Char × Nat) × Nat)
  | [], pc, labels, acc => .ok (acc, labels, pc)
  | line :: rest, pc, labels, acc =>
    let s := pyStrip line
    if s.isEmpty then firstPassAux rest pc labels acc
    else
      match labelParse s with
      | some lab =>
        if (labels.lookup lab).isSome then .error .duplicateLabel
        else firstPassAux rest pc (labels ++ [(lab, pc)]) acc
      | none =>
        match stringDirParse s with
        | some (isAsciz, raw) =>
          match unescapeString raw with
          | none => .error .unicodeError
          | some txt =>
            let ex := expandStr txt pc
            if isAsciz then
              firstPassAux rest (ex.2 + 2) labels (acc ++ ex.1 ++ [(EUnit.BYTE '\x00', ex.2)])
            else firstPassAux rest ex.2 labels (acc ++ ex.1)
        | none =>
          if pyLower s = ".halt".toList then
            firstPassAux rest (pc + 1) labels (acc ++ [(EUnit.HALT, pc)])
          else firstPassAux rest (pc + 1) labels (acc ++ [(EUnit.INST s, pc)])

/-- Pass 1 on the comment-stripped source lines. -/
def first_pass (lines : List (List Char)) :
    Except AsmErr (List (EUnit × Nat) × List (List Char × Nat) × Nat) :=
  firstPassAux lines 0 [] []

/-- Python `parts[i]`: an out-of-range access raises IndexError. -/
def idx (parts : List (List Char)) (i : Nat) : Except AsmErr (List Char) :=
  match parts.get? i with
  | some p => .ok p
  | none => .error .indexError

/-- Truncation of a (possibly negative) Python integer by a bit mask:
`i & (m-1)` on unbounded two's-complement integers is the nonnegative
residue `i mod m`. -/
def immTrunc (m : Nat) (i : Int) : Nat := (i.emod m).toNat

/-- The mnemonic dispatch of `second_pass` for one instruction line's
token list: the first token (uppercased) selects the opcode; operands are
read positionally exactly as the source indexes `parts`. -/
def encodeParts (parts : List (List Char)) (labels : List (List Char × Nat)) :
    Except AsmErr Nat := do
  let p0 ← idx parts 0
  let op := pyUpper p0
  if op = "NOP".toList then
    pure (emit_inst_word 0x0 0 0 0)
  else if op = "ADD".toList then
    let rd ← regnum (← idx parts 1)
    let rs ← regnum (← idx parts 2)
    pure (emit_inst_word 0x1 rd rs 0)
  else if op = "SUB".toList then
    let rd ← regnum (← idx parts 1)
    let rs ← regnum (← idx parts 2)
    pure (emit_inst_word 0x2 rd rs 0)
  else if op = "LI".toList then
    let rd ← regnum (← idx parts 1)
    let imm ← parse_imm (← idx parts 2)
    pure (emit_inst_word 0x3 rd 0 (immTrunc 65536 imm))
  else if op = "LD".toList then
    let rd ← regnum (← idx parts 1)
    let a ← parse_imm (← idx parts 2)
    pure (emit_inst_word 0x4 rd 0 (immTrunc 256 a))
  else if op = "ST".toList then
    let rd ← regnum (← idx parts 1)
    let a ← parse_imm (← idx parts 2)
    pure (emit_inst_word 0x5 rd 0 (immTrunc 256 a))
  else if op = "JZ".toList then
    let rd ← regnum (← idx parts 1)
    let dispStr ← idx parts 2
    match labels.lookup dispStr with
    | some a => pure (emit_inst_word 0x6 rd 0 (a &&& 0xFF))
    | none => do
      let d ← parse_imm dispStr
      pure (emit_inst_word 0x6 rd 0 (immTrunc 256 d))
  else if op = "JMP".toList then
    let target ← idx parts 1
    match labels.lookup target with
    | some a => pure (emit_inst_word 0x7 0 0 (a &&& 0xFF))
    | none => do
      let d ← parse_imm target
      pure (emit_inst_word 0x7 0 0 (immTrunc 256 d))
  else if op = "SHL".toList then
    let rd ← regnum (← idx parts 1)
    let rs ← regnum (← idx parts 2)
    pure (emit_inst_word 0x9 rd rs 0)
  else if op = "HALT".toList then
    pure (emit_inst_word 0xF 0 0 0)
  else .error .unknownOp

/-- Encoding of one raw instruction line: strip, tokenize, dispatch. -/
def encodeInst (s : List Char) (labels : List (List Char × Nat)) : Except AsmErr Nat :=
  encodeParts (tokenize (pyStrip s)) labels

/-- Loop body of `second_pass`: encode each emission unit into words,
threading a fresh program counter. -/
def secondPassAux (labels : List (List Char × Nat)) :
    List EUnit → List Nat → Nat → Except AsmErr (List Nat)
  | [], out, _ => .ok out
  | .BYTE ch :: rest, out, pc =>
    secondPassAux labels rest
      (out ++ [emit_inst_word 0x3 0 0 ch.toNat, emit_inst_word 0x5 0 0 0xFF]) (pc + 2)
  | .HALT :: rest, out, pc =>
    secondPassAux labels rest (out ++ [emit_inst_word 0xF 0 0 0]) (pc + 1)
  | .INST s :: rest, out, pc => do
    let w ← encodeInst s labels
    secondPassAux labels rest (out ++ [w]) (pc + 1)

/-- Pass 2: walk the unit list again, with the frozen label table, and a
fresh `pc` starting at 0. -/
def second_pass (units : List EUnit) (labels : List (List Char × Nat)) :
    Except AsmErr (List Nat) :=
  secondPassAux labels units [] 0

/-- The word sequence `write_rom` writes: the program, then zero padding
when a truthy pad target exceeds the emitted count (`missing > 0`). -/
def write_rom (outwords : List Nat) (pad : Option Nat) : List Nat :=
  match pad with
  | none => outwords
  | some p =>
    if p = 0 then outwords
    else if outwords.length < p then outwords ++ List.replicate (p - outwords.length) 0
    else outwords

/-- Comment stripping in `read_source`: the text before the first `;` or
`#` of each line. -/
def stripComment (cs : List Char) : List Char :=
  cs.takeWhile (fun c => !(c = ';' || c = '#'))

/-- The `main` pipeline on an already-read source: comment stripping, both
passes, then the ROM writer; `none` when either pass raises, in which case
`write_rom` is never reached and no output file is produced. -/
def mainAssemble (srcLines : List (List Char)) (padArg : Nat) : Option (List Nat) :=
  let lines := srcLines.map stripComment
  match first_pass lines with
  | .error _ => none
  | .ok (units, labels, _) =>
    match second_pass (units.map Prod.fst) labels with
    | .error _ => none
    | .ok ws => some (write_rom ws (if 0 < padArg then some padArg else none))

/-- The pc value Pass 2 holds when it reaches each unit: a fresh counter,
advanced by `unitSize` per unit exactly as `secondPassAux` advances it. -/
def pass2Walk : List EUnit → Nat → List Nat
  | [], _ => []
  | u :: rest, pc => pc :: pass2Walk rest (pc + unitSize u)

/-- Total word cost of a unit list: the amount either pass advances `pc`
while walking it. -/
def sizeSum (units : List EUnit) : Nat := (units.map unitSize).sum

theorem sizeSum_cons (u : EUnit) (us : List EUnit) :
    sizeSum (u :: us) = unitSize u + sizeSum us := by
  simp [sizeSum]

theorem sizeSum_append (xs ys : List EUnit) : sizeSum (xs ++ ys) = sizeSum xs + sizeSum ys := by
  simp [sizeSum]

/-- The pass-2 walk advances by 2 over a BYTE unit, exactly as
`secondPassAux` does. -/
theorem secondPassAux_step_BYTE (labels : List (List Char × Nat)) (ch : Char)
    (rest : List EUnit) (out : List Nat) (pc : Nat) :
    secondPassAux labels (.BYTE ch :: rest) out pc =
      secondPassAux labels rest
        (out ++ [emit_inst_word 0x3 0 0 ch.toNat, emit_inst_word 0x5 0 0 0xFF])
        (pc + unitSize (.BYTE ch)) := rfl

/-- The pass-2 walk advances by 1 over a HALT unit. -/
theorem secondPassAux_step_HALT (labels : List (List Char × Nat)) (rest : List EUnit)
    (out : List Nat) (pc : Nat) :
    secondPassAux labels (.HALT :: rest) out pc =
      secondPassAux labels rest (out ++ [emit_inst_word 0xF 0 0 0]) (pc + unitSize .HALT) := rfl

/-- The pass-2 walk advances by 1 over an INST unit. -/
theorem secondPassAux_step_INST (labels : List (List Char × Nat)) (s : List Char)
    (rest : List EUnit) (out : List Nat) (pc : Nat) :
    secondPassAux labels (.INST s :: rest) out pc =
      (encodeInst s labels).bind fun w =>
        secondPassAux labels rest (out ++ [w]) (pc + unitSize (.INST s)) := rfl

theorem pass2Walk_append (xs ys : List EUnit) (pc : Nat) :
    pass2Walk (xs ++ ys) pc = pass2Walk xs pc ++ pass2Walk ys (pc + sizeSum xs) := by
  induction xs generalizing pc with
  | nil => simp [pass2Walk, sizeSum]
  | cons u xs ih => simp [pass2Walk, ih, sizeSum_cons, Nat.add_assoc]

theorem expandStr_spec (cs : List Char) (pc : Nat) :
    List.map Prod.snd (expandStr cs pc).1 =
        pass2Walk (List.map Prod.fst (expandStr cs pc).1) pc ∧
      (expandStr cs pc).2 = pc + sizeSum (List.map Prod.fst (expandStr cs pc).1) := by
  induction cs generalizing pc with
  | nil => simp [expandStr, pass2Walk, sizeSum]
  | cons c cs ih =>
    obtain ⟨h1, h2⟩ := ih (pc + 2)
    simp only [expandStr, List.map_cons, pass2Walk, sizeSum_cons]
    constructor
    · rw [h1]
      rfl
    · rw [h2]
      show pc + 2 + _ = pc + (2 + _)
      omega

/-- Every successful run of the Pass-1 loop appends a unit block whose
recorded addresses are exactly the pass-2 re-walk from the entry `pc`, and
whose final `pc` is the entry `pc` plus the block's word cost. -/
theorem firstPassAux_spec (rest : List (List Char)) :
    ∀ (pc : Nat) (labels : List (List Char × Nat)) (acc units : List (EUnit × Nat))
      (lout : List (List Char × Nat)) (fin : Nat),
      firstPassAux rest pc labels acc = .ok (units, lout, fin) →
      ∃ tail, units = acc ++ tail ∧
        List.map Prod.snd tail = pass2Walk (List.map Prod.fst tail) pc ∧
        fin = pc + sizeSum (List.map Prod.fst tail) := by
  induction rest with
  | nil =>
    intro pc labels acc units lout fin h
    simp only [firstPassAux, Except.ok.injEq, Prod.mk.injEq] at h
    obtain ⟨rfl, -, rfl⟩ := h
    exact ⟨[], by simp, by simp [pass2Walk], by simp [sizeSum]⟩
  | cons line rest ih =>
    intro pc labels acc units lout fin h
    simp only [firstPassAux] at h
    split at h
    · exact ih pc labels acc units lout fin h
    · split at h
      · split at h
        · exact (Except.noConfusion h)
        · obtain ⟨tail, e, hw, hf⟩ := ih pc _ acc units lout fin h
          exact ⟨tail, e, hw, hf⟩
      · split at h
        · rename_i isA raw heq
          split at h
          · -- malformed escape: the directive raises, never reaching `.ok`
            exact (Except.noConfusion h)
          · rename_i txt hequ
            split at h
            · -- .asciz: the expanded characters plus a final NUL byte
              obtain ⟨tail, e, hw, hf⟩ := ih _ labels _ units lout fin h
              obtain ⟨he1, he2⟩ := expandStr_spec txt pc
              refine ⟨(expandStr txt pc).1 ++
                ((EUnit.BYTE '\x00', (expandStr txt pc).2) :: tail), ?_, ?_, ?_⟩
              · rw [e]
                simp [List.append_assoc]
              · simp only [List.map_append, List.map_cons, pass2Walk_append, pass2Walk]
                rw [he1, hw, ← he2]
                rfl
              · rw [hf, he2]
                simp only [List.map_append, List.map_cons, sizeSum_append, sizeSum_cons, unitSize]
                omega
            · -- .string: just the expanded characters
              obtain ⟨tail, e, hw, hf⟩ := ih _ labels _ units lout fin h
              obtain ⟨he1, he2⟩ := expandStr_spec txt pc
              refine ⟨(expandStr txt pc).1 ++ tail, ?_, ?_, ?_⟩
              · rw [e]
                simp [List.append_assoc]
              · simp only [List.map_append, pass2Walk_append]
                rw [he1, hw, ← he2]
              · rw [hf, he2]
                simp only [List.map_append, sizeSum_append]
                omega
        · split at h
          · -- .halt
            obtain ⟨tail, e, hw, hf⟩ := ih _ labels _ units lout fin h
            refine ⟨(EUnit.HALT, pc) :: tail, ?_, ?_, ?_⟩
            · rw [e]
              simp
            · simp only [List.map_cons, pass2Walk]
              rw [hw]
              rfl
            · rw [hf]
              simp only [List.map_cons, sizeSum_cons, unitSize]
              omega
          · -- plain instruction
            obtain ⟨tail, e, hw, hf⟩ := ih _ labels _ units lout fin h
            refine ⟨(EUnit.INST (pyStrip line), pc) :: tail, ?_, ?_, ?_⟩
            · rw [e]
              simp
            · simp only [List.map_cons, pass2Walk]
              rw [hw]
              rfl
            · rw [hf]
              simp only [List.map_cons, sizeSum_cons, unitSize]
              omega

/-- A successful Pass-2 run emits exactly `sizeSum` words beyond the
accumulator: two per BYTE unit, one per HALT or INST unit. -/
theorem secondPassAux_length (units : List EUnit) :
    ∀ (labels : List (List Char × Nat)) (out : List Nat) (pc : Nat) (ws : List Nat),
      secondPassAux labels units out pc = .ok ws → ws.length = out.length + sizeSum units := by
  induction units with
  | nil =>
    intro labels out pc ws h
    simp only [secondPassAux, Except.ok.injEq] at h
    simp [← h, sizeSum]
  | cons u rest ih =>
    intro labels out pc ws h
    cases u with
    | BYTE ch =>
      have := ih labels _ _ ws h
      simp only [List.length_append, List.length_cons, List.length_nil] at this
      rw [this, sizeSum_cons]
      show out.length + 2 + _ = out.length + (2 + _)
      omega
    | HALT =>
      have := ih labels _ _ ws h
      simp only [List.length_append, List.length_cons, List.length_nil] at this
      rw [this, sizeSum_cons]
      show out.length + 1 + _ = out.length + (1 + _)
      omega
    | INST s =>
      rw [secondPassAux_step_INST] at h
      cases he : encodeInst s labels with
      | error e =>
        rw [he] at h
        exact (Except.noConfusion h)
      | ok w =>
        rw [he] at h
        have := ih labels _ _ ws h
        simp only [List.length_append, List.length_cons, List.length_nil] at this
        rw [this, sizeSum_cons]
        show out.length + 1 + _ = out.length + (1 + _)
        omega

/-- Label addresses recorded by Pass 1 never exceed the final `pc`. -/
theorem firstPassAux_labels_le (rest : List (List Char)) :
    ∀ (pc : Nat) (labels : List (List Char × Nat)) (acc units : List (EUnit × Nat))
      (lout : List (List Char × Nat)) (fin : Nat),
      firstPassAux rest pc labels acc = .ok (units, lout, fin) →
      (∀ p ∈ labels, p.2 ≤ pc) → pc ≤ fin ∧ ∀ p ∈ lout, p.2 ≤ fin := by
  induction rest with
  | nil =>
    intro pc labels acc units lout fin h hb
    simp only [firstPassAux, Except.ok.injEq, Prod.mk.injEq] at h
    obtain ⟨-, rfl, rfl⟩ := h
    exact ⟨Nat.le_refl _, hb⟩
  | cons line rest ih =>
    intro pc labels acc units lout fin h hb
    simp only [firstPassAux] at h
    split at h
    · exact ih pc labels acc units lout fin h hb
    · split at h
      · split at h
        · exact (Except.noConfusion h)
        · refine ih pc _ acc units lout fin h ?_
          intro p hp
          rcases List.mem_append.mp hp with hp | hp
          · exact hb p hp
          · simp only [List.mem_singleton] at hp
            simp [hp]
      · split at h
        · rename_i isA raw heq
          split at h
          · exact (Except.noConfusion h)
          · rename_i txt hequ
            obtain ⟨he1, he2⟩ := expandStr_spec txt pc
            split at h
            · obtain ⟨hr1, hr2⟩ := ih _ labels _ units lout fin h
                (fun p hp => le_trans (hb p hp) (by omega))
              exact ⟨by omega, hr2⟩
            · obtain ⟨hr1, hr2⟩ := ih _ labels _ units lout fin h
                (fun p hp => le_trans (hb p hp) (by omega))
              exact ⟨by omega, hr2⟩
        · split at h
          · obtain ⟨hr1, hr2⟩ := ih _ labels _ units lout fin h
              (fun p hp => le_trans (hb p hp) (by omega))
            exact ⟨by omega, hr2⟩
          · obtain ⟨hr1, hr2⟩ := ih _ labels _ units lout fin h
              (fun p hp => le_trans (hb p hp) (by omega))
            exact ⟨by omega, hr2⟩

/-- The label names a source declares, in declaration order: exactly the
lines the Pass-1 classifier takes as label lines. -/
def sourceLabelNames (lines : List (List Char)) : List (List Char) :=
  lines.filterMap (fun l => labelParse (pyStrip l))

theorem lookup_isSome_iff (labels : List (List Char × Nat)) (k : List Char) :
    (labels.lookup k).isSome = true ↔ k ∈ labels.map Prod.fst := by
  induction labels with
  | nil => simp [List.lookup]
  | cons p rest ih =>
    obtain ⟨a, b⟩ := p
    by_cases hk : k = a
    · subst hk
      simp [List.lookup]
    · have hb : (k == a) = false := beq_eq_false_iff_ne.mpr hk
      simp [List.lookup, hb, hk, ih]

/-- A successful Pass-1 run never sees a repeated label name: the table
keys so far, followed by the upcoming label names, stay duplicate-free. -/
theorem firstPassAux_nodup (rest : List (List Char)) :
    ∀ (pc : Nat) (labels : List (List Char × Nat)) (acc : List (EUnit × Nat))
      (r : List (EUnit × Nat) × List (List Char × Nat) × Nat),
      firstPassAux rest pc labels acc = .ok r → (labels.map Prod.fst).Nodup →
      ((labels.map Prod.fst) ++ sourceLabelNames rest).Nodup := by
  induction rest with
  | nil =>
    intro pc labels acc r h hd
    simpa [sourceLabelNames] using hd
  | cons line rest ih =>
    intro pc labels acc r h hd
    simp only [firstPassAux] at h
    simp only [sourceLabelNames, List.filterMap_cons]
    split at h
    · have hempty : pyStrip line = [] := by
        rename_i hb
        exact List.isEmpty_iff.mp hb
      have hlp : labelParse (pyStrip line) = none := by
        rw [hempty]
        rfl
      simp only [hlp]
      simpa [sourceLabelNames] using ih pc labels acc r h hd
    · split at h
      · rename_i lab heq
        rw [heq]
        split at h
        · exact (Except.noConfusion h)
        · rename_i hns
          have hnotin : lab ∉ labels.map Prod.fst := by
            intro hmem
            exact hns ((lookup_isSome_iff labels lab).mpr hmem)
          have hdisj : (labels.map Prod.fst).Disjoint [lab] := by
            intro x hx hx'
            rw [List.mem_singleton] at hx'
            subst hx'
            exact hnotin hx
          have hd' : ((labels ++ [(lab, pc)]).map Prod.fst).Nodup := by
            simp only [List.map_append, List.map_cons, List.map_nil]
            exact List.Nodup.append hd (List.nodup_singleton lab) hdisj
          have := ih pc (labels ++ [(lab, pc)]) acc r h hd'
          simpa [sourceLabelNames, List.append_assoc] using this
      · rename_i heq
        rw [heq]
        split at h
        · split at h
          · exact (Except.noConfusion h)
          · split at h
            · simpa [sourceLabelNames] using ih _ labels _ r h hd
            · simpa [sourceLabelNames] using ih _ labels _ r h hd
        · split at h
          · simpa [sourceLabelNames] using ih _ labels _ r h hd
          · simpa [sourceLabelNames] using ih _ labels _ r h hd

/-- The only errors Pass 1 can raise are the duplicate-label ValueError
and the UnicodeDecodeError of a malformed string-directive escape. -/
theorem firstPassAux_error (rest : List (List Char)) :
    ∀ (pc : Nat) (labels : List (List Char × Nat)) (acc : List (EUnit × Nat)) (e : AsmErr),
      firstPassAux rest pc labels acc = .error e →
      e = .duplicateLabel ∨ e = .unicodeError := by
  induction rest with
  | nil =>
    intro pc labels acc e h
    exact (Except.noConfusion h)
  | cons line rest ih =>
    intro pc labels acc e h
    simp only [firstPassAux] at h
    split at h
    · exact ih _ _ _ _ h
    · split at h
      · split at h
        · injection h with h'
          exact Or.inl h'.symm
        · exact ih _ _ _ _ h
      · split at h
        · split at h
          · injection h with h'
            exact Or.inr h'.symm
          · split at h
            · exact ih _ _ _ _ h
            · exact ih _ _ _ _ h
        · split at h
          · exact ih _ _ _ _ h
          · exact ih _ _ _ _ h

/-- A well-formed string-directive source line carrying the raw quoted
text `s`. -/
def stringDirLine (isAsciz : Bool) (s : List Char) : List Char :=
  (if isAsciz then ".asciz" else ".string").toList ++ ' ' :: '"' :: (s ++ ['"'])

theorem pyStrip_eq_self (a b : Char) (xs : List Char) (ha : isPySpace a = false)
    (hb : isPySpace b = false) : pyStrip (a :: (xs ++ [b])) = a :: (xs ++ [b]) := by
  have h1 : List.dropWhile isPySpace (a :: (xs ++ [b])) = a :: (xs ++ [b]) := by
    rw [List.dropWhile_cons]
    simp [ha]
  have hr : (a :: (xs ++ [b])).reverse = b :: (xs.reverse ++ [a]) := by
    simp [List.reverse_cons, List.reverse_append]
  have h2 : List.dropWhile isPySpace (b :: (xs.reverse ++ [a])) = b :: (xs.reverse ++ [a]) := by
    rw [List.dropWhile_cons]
    simp [hb]
  unfold pyStrip
  rw [h1, hr, h2]
  simp [List.reverse_cons, List.reverse_append]

theorem trimRightSpaces_concat (s : List Char) (c : Char) (hc : isPySpace c = false) :
    trimRightSpaces (s ++ [c]) = s ++ [c] := by
  unfold trimRightSpaces
  rw [List.reverse_append]
  simp only [List.reverse_cons, List.reverse_nil, List.nil_append, List.singleton_append]
  rw [List.dropWhile_cons]
  simp [hc]

theorem stringDirLine_shape (k : Bool) (s : List Char) :
    stringDirLine k s =
      '.' :: (((if k then "asciz" else "string").toList ++ ' ' :: '"' :: s) ++ ['"']) := by
  cases k <;> simp [stringDirLine, List.append_assoc]

theorem pyStrip_stringDirLine (k : Bool) (s : List Char) :
    pyStrip (stringDirLine k s) = stringDirLine k s := by
  rw [stringDirLine_shape]
  exact pyStrip_eq_self '.' '"' _ (by decide) (by decide)

theorem stringDirLine_getLast (k : Bool) (s : List Char) :
    (stringDirLine k s).getLast? = some '"' := by
  rw [stringDirLine_shape]
  rw [show ('.' :: (((if k then "asciz" else "string").toList ++ ' ' :: '"' :: s) ++ ['"'])) =
    ('.' :: ((if k then "asciz" else "string").toList ++ ' ' :: '"' :: s)) ++ ['"'] from rfl]
  exact List.getLast?_concat _

theorem labelParse_stringDirLine (k : Bool) (s : List Char) :
    labelParse (stringDirLine k s) = none := by
  unfold labelParse
  rw [stringDirLine_getLast]
  simp

theorem stringDirParse_mk (k : Bool) (s : List Char) (h : '\n' ∉ s) :
    stringDirParse (stringDirLine k s) = some (k, s) := by
  have hc : (s ++ ['"']).dropLast.contains '\n' = false := by
    rw [List.dropLast_concat]
    exact Bool.eq_false_iff.mpr fun hm => h (List.elem_iff.mp hm)
  cases k with
  | false =>
    have e1 : stringDirParse (stringDirLine false s) =
        stringDirQuoted false ('"' :: (s ++ ['"'])) := rfl
    rw [e1]
    show (let body := trimRightSpaces (s ++ ['"'])
      if body.getLast? = some '"' && !(body.dropLast.contains '\n') then
        some (false, body.dropLast) else none) = some (false, s)
    rw [trimRightSpaces_concat s '"' (by decide)]
    simp [List.getLast?_concat, List.dropLast_concat, hc, h]
  | true =>
    have e1 : stringDirParse (stringDirLine true s) =
        stringDirQuoted true ('"' :: (s ++ ['"'])) := rfl
    rw [e1]
    show (let body := trimRightSpaces (s ++ ['"'])
      if body.getLast? = some '"' && !(body.dropLast.contains '\n') then
        some (true, body.dropLast) else none) = some (true, s)
    rw [trimRightSpaces_concat s '"' (by decide)]
    simp [List.getLast?_concat, List.dropLast_concat, hc, h]

theorem expandStr_fst (cs : List Char) (pc : Nat) :
    (expandStr cs pc).1.map Prod.fst = cs.map EUnit.BYTE := by
  induction cs generalizing pc with
  | nil => simp [expandStr]
  | cons c cs ih => simp [expandStr, ih]

/-- Pass 2 over a run of BYTE units never fails and emits the load+store
pair of each character in order. -/
theorem secondPassAux_bytes (labels : List (List Char × Nat)) :
    ∀ (cs : List Char) (out : List Nat) (pc : Nat),
      secondPassAux labels (cs.map EUnit.BYTE) out pc =
        .ok (out ++ cs.flatMap fun c =>
          [emit_inst_word 0x3 0 0 c.toNat, emit_inst_word 0x5 0 0 0xFF]) := by
  intro cs
  induction cs with
  | nil => intro out pc; simp [secondPassAux]
  | cons c cs ih =>
    intro out pc
    simp only [List.map_cons, secondPassAux, List.flatMap_cons]
    rw [ih]
    simp [List.append_assoc]

/-- No two adjacent underscores. -/
def noDoubleUnderscore : List Char → Bool
  | a :: b :: rest => !(a = '_' && b = '_') && noDoubleUnderscore (b :: rest)
  | _ => true

/-- Declarative grammar of one underscore-grouped digit run, following the
specification's words: nonempty, starts and ends with a digit of the
base, contains only such digits and underscores, and never two adjacent
underscores. -/
def grammarRun (isD : Char → Bool) (cs : List Char) : Bool :=
  !cs.isEmpty && cs.head?.elim false isD && cs.getLast?.elim false isD &&
    cs.all (fun c => isD c || c = '_') && noDoubleUnderscore cs

/-- Grammar after a base marker: one optional underscore, then a run. -/
def grammarAfterMark (isD : Char → Bool) (cs : List Char) : Bool :=
  match cs with
  | c :: rest => if c = '_' then grammarRun isD rest else grammarRun isD (c :: rest)
  | [] => grammarRun isD []

/-- Grammar of a magnitude with an optional `0`-plus-marker head. -/
def grammarMarked (isD : Char → Bool) (m1 m2 : Char) (cs : List Char) : Bool :=
  match cs with
  | a :: c :: rest =>
    if a = '0' && (c = m1 || c = m2) then grammarAfterMark isD rest
    else grammarRun isD (a :: c :: rest)
  | _ => grammarRun isD cs

/-- Grammar of an optionally signed magnitude. -/
def grammarSigned (core : List Char → Bool) (cs : List Char) : Bool :=
  match cs with
  | c :: rest => if c = '-' then core rest else if c = '+' then core rest else core (c :: rest)
  | [] => core []

/-- The accepted immediate tokens, in the words of the amended
specification: after stripping, a `0x`/`0X`-prefixed hexadecimal literal;
or a token ending in `b` whose body is an optionally signed, optionally
`0b`/`0B`-prefixed binary literal; or an optionally signed decimal
literal — in each case with single underscores allowed between digits and
one allowed right after a prefix. -/
def acceptedImmTok (s : List Char) : Bool :=
  let t := pyStrip s
  if startsWith0x t then grammarAfterMark isHexDigit (t.drop 2)
  else if t.getLast? = some 'b' then grammarSigned (grammarMarked isBinDigit 'b' 'B') t.dropLast
  else grammarSigned (grammarRun isDecDigit) t

theorem digitsAux_isSome (isD : Char → Bool) (h_ : isD '_' = false) (base : Nat) :
    ∀ (n : Nat) (cs : List Char), cs.length ≤ n → ∀ (acc : Nat),
      (digitsAux isD base acc cs).isSome =
        (cs.all (fun c => isD c || c = '_') && noDoubleUnderscore cs &&
          cs.getLast?.elim true isD) := by
  intro n
  induction n with
  | zero =>
    intro cs hl acc
    have hnil : cs = [] := List.eq_nil_of_length_eq_zero (Nat.le_zero.mp hl)
    subst hnil
    simp [digitsAux, noDoubleUnderscore]
  | succ n ihn =>
    intro cs hl acc
    cases cs with
    | nil => simp [digitsAux, noDoubleUnderscore]
    | cons c rest =>
      unfold digitsAux
      by_cases hcu : c = '_'
      · subst hcu
        rw [if_pos rfl]
        cases rest with
        | nil => simp [noDoubleUnderscore, h_]
        | cons d rest' =>
          show (if isD d then digitsAux isD base (acc * base + digitVal d) rest'
            else none).isSome = _
          by_cases hd : isD d
          · have hlen : rest'.length ≤ n := by
              simp only [List.length_cons] at hl
              omega
            rw [if_pos hd, ihn rest' hlen _]
            have hdu : d ≠ '_' := by
              intro e
              rw [e, h_] at hd
              exact Bool.noConfusion hd
            cases rest' with
            | nil => simp [noDoubleUnderscore, h_, hd, hdu]
            | cons e t =>
              simp [noDoubleUnderscore, h_, hd, hdu, List.getLast?_cons_cons]
          · rw [if_neg hd]
            by_cases hdu : d = '_'
            · subst hdu
              simp [noDoubleUnderscore, h_]
            · simp [noDoubleUnderscore, h_, hd, hdu]
      · rw [if_neg hcu]
        by_cases hc : isD c
        · have hlen : rest.length ≤ n := by
            simp only [List.length_cons] at hl
            omega
          rw [if_pos hc, ihn rest hlen _]
          cases rest with
          | nil => simp [noDoubleUnderscore, hc]
          | cons e t => simp [noDoubleUnderscore, hc, hcu, List.getLast?_cons_cons]
        · rw [if_neg hc]
          simp [noDoubleUnderscore, hc, hcu]

theorem digitRun_isSome (isD : Char → Bool) (h_ : isD '_' = false) (base : Nat)
    (cs : List Char) : (digitRun isD base cs).isSome = grammarRun isD cs := by
  cases cs with
  | nil => simp [digitRun, grammarRun]
  | cons c rest =>
    simp only [digitRun]
    by_cases hc : isD c
    · rw [if_pos hc, digitsAux_isSome isD h_ base rest.length rest (Nat.le_refl _) _]
      have hcu : c ≠ '_' := by
        intro e
        rw [e, h_] at hc
        exact Bool.noConfusion hc
      cases rest with
      | nil => simp [grammarRun, noDoubleUnderscore, hc]
      | cons e t =>
        obtain ⟨x, hx⟩ := Option.isSome_iff_exists.mp
          (List.getLast?_isSome.mpr (List.cons_ne_nil e t))
        simp [grammarRun, noDoubleUnderscore, hc, hcu, hx, Bool.and_comm, Bool.and_left_comm,
          Bool.and_assoc]
    · rw [if_neg hc]
      simp [grammarRun, hc]

theorem digitRunAfterMark_isSome (isD : Char → Bool) (h_ : isD '_' = false) (base : Nat)
    (cs : List Char) :
    (digitRunAfterMark isD base cs).isSome = grammarAfterMark isD cs := by
  cases cs with
  | nil =>
    simp only [digitRunAfterMark, grammarAfterMark]
    exact digitRun_isSome isD h_ base []
  | cons c rest =>
    simp only [digitRunAfterMark, grammarAfterMark]
    by_cases hc : c = '_'
    · rw [if_pos hc, if_pos hc]
      exact digitRun_isSome isD h_ base rest
    · rw [if_neg hc, if_neg hc]
      exact digitRun_isSome isD h_ base (c :: rest)

theorem pyIntNum_isSome_none (isD : Char → Bool) (h_ : isD '_' = false) (base : Nat)
    (cs : List Char) : (pyIntNum isD base none cs).isSome = grammarRun isD cs := by
  cases cs with
  | nil => exact digitRun_isSome isD h_ base []
  | cons c rest =>
    cases rest with
    | nil => exact digitRun_isSome isD h_ base [c]
    | cons d t => exact digitRun_isSome isD h_ base (c :: d :: t)

theorem pyIntNum_isSome_mark (isD : Char → Bool) (h_ : isD '_' = false) (base : Nat)
    (m1 m2 : Char) (cs : List Char) :
    (pyIntNum isD base (some (m1, m2)) cs).isSome = grammarMarked isD m1 m2 cs := by
  cases cs with
  | nil => exact digitRun_isSome isD h_ base []
  | cons c rest =>
    cases rest with
    | nil => exact digitRun_isSome isD h_ base [c]
    | cons d t =>
      simp only [pyIntNum, grammarMarked]
      by_cases hm : (c = '0' && (d = m1 || d = m2)) = true
      · rw [if_pos hm, if_pos hm]
        exact digitRunAfterMark_isSome isD h_ base t
      · rw [if_neg hm, if_neg hm]
        exact digitRun_isSome isD h_ base (c :: d :: t)

theorem pythonInt_isSome (isD : Char → Bool) (base : Nat) (mark : Option (Char × Char))
    (G : List Char → Bool) (hG : ∀ t, (pyIntNum isD base mark t).isSome = G t)
    (cs : List Char) : (pythonInt isD base mark cs).isSome = grammarSigned G cs := by
  cases cs with
  | nil =>
    simp only [pythonInt, grammarSigned, Option.isSome_map']
    exact hG []
  | cons c rest =>
    simp only [pythonInt, grammarSigned]
    by_cases hminus : c = '-'
    · rw [if_pos hminus, if_pos hminus, Option.isSome_map']
      exact hG rest
    · rw [if_neg hminus, if_neg hminus]
      by_cases hplus : c = '+'
      · rw [if_pos hplus, if_pos hplus, Option.isSome_map']
        exact hG rest
      · rw [if_neg hplus, if_neg hplus, Option.isSome_map']
        exact hG (c :: rest)

/-! Claim theorems. -/

/-- C1: for every emission-unit list produced by Pass 1, the Pass-2
re-walk with a fresh program counter starting at 0 (`pass2Walk`, which
advances by `unitSize` — 2 per BYTE unit, 1 per HALT or INST unit,
exactly as `secondPassAux` advances its `pc`) assigns every unit the same
word address Pass 1 recorded for it. -/
theorem claim_c1_addressAgreement (lines : List (List Char)) (units : List (EUnit × Nat))
    (labels : List (List Char × Nat)) (fin : Nat)
    (h : first_pass lines = .ok (units, labels, fin)) :
    List.map Prod.snd units = pass2Walk (List.map Prod.fst units) 0 := by
  obtain ⟨tail, e, hw, -⟩ := firstPassAux_spec lines 0 [] [] units labels fin h
  have e' : units = tail := by simpa using e
  rw [e']
  exact hw

/-- Witness for C1 on a program with a string directive, a label, a halt
directive and an instruction. -/
theorem claim_c1_addressAgreement_witness :
    first_pass ([".string \"ab\"", "x:", ".halt", "NOP"].map String.toList) =
        .ok ([(EUnit.BYTE 'a', 0), (EUnit.BYTE 'b', 2), (EUnit.HALT, 4),
            (EUnit.INST "NOP".toList, 5)], [("x".toList, 4)], 6) ∧
      List.map Prod.snd [(EUnit.BYTE 'a', 0), (EUnit.BYTE 'b', 2), (EUnit.HALT, 4),
          (EUnit.INST "NOP".toList, 5)] =
        pass2Walk (List.map Prod.fst [(EUnit.BYTE 'a', 0), (EUnit.BYTE 'b', 2), (EUnit.HALT, 4),
          (EUnit.INST "NOP".toList, 5)]) 0 := by
  refine ⟨rfl, ?_⟩
  exact claim_c1_addressAgreement ([".string \"ab\"", "x:", ".halt", "NOP"].map String.toList)
    _ _ _ rfl

/-- C10: for every source that assembles without error, the number of
words produced by Pass 2 equals the final program counter reached by
Pass 1, and every recorded label address is at most that count (so a label
lies inside the emitted program unless it labels the very end). -/
theorem claim_c10_wordCount (lines : List (List Char)) (units : List (EUnit × Nat))
    (labels : List (List Char × Nat)) (fin : Nat) (ws : List Nat)
    (h1 : first_pass lines = .ok (units, labels, fin))
    (h2 : second_pass (units.map Prod.fst) labels = .ok ws) :
    ws.length = fin ∧ ∀ p ∈ labels, p.2 ≤ ws.length := by
  obtain ⟨tail, e, -, hfin⟩ := firstPassAux_spec lines 0 [] [] units labels fin h1
  have e' : units = tail := by simpa using e
  subst e'
  have hlen : ws.length = sizeSum (units.map Prod.fst) := by
    simpa using secondPassAux_length (units.map Prod.fst) labels [] 0 ws h2
  have hlab := firstPassAux_labels_le lines 0 [] [] units labels fin h1 (by simp)
  refine ⟨by omega, fun p hp => ?_⟩
  have := hlab.2 p hp
  omega

/-- Witness for C10 on a three-line program with one label. -/
theorem claim_c10_wordCount_witness :
    first_pass (["start:", "NOP", "JMP start"].map String.toList) =
        .ok ([(EUnit.INST "NOP".toList, 0), (EUnit.INST "JMP start".toList, 1)],
          [("start".toList, 0)], 2) ∧
      second_pass [EUnit.INST "NOP".toList, EUnit.INST "JMP start".toList]
          [("start".toList, 0)] = .ok [0, 8070450532247928832] ∧
      ([0, 8070450532247928832] : List Nat).length = 2 ∧
      ∀ p ∈ [("start".toList, (0 : Nat))], p.2 ≤ ([0, 8070450532247928832] : List Nat).length := by
  refine ⟨rfl, rfl, ?_, ?_⟩
  · exact (claim_c10_wordCount (["start:", "NOP", "JMP start"].map String.toList)
      [(EUnit.INST "NOP".toList, 0), (EUnit.INST "JMP start".toList, 1)]
      [("start".toList, 0)] 2 [0, 8070450532247928832] rfl rfl).1
  · exact (claim_c10_wordCount (["start:", "NOP", "JMP start"].map String.toList)
      [(EUnit.INST "NOP".toList, 0), (EUnit.INST "JMP start".toList, 1)]
      [("start".toList, 0)] 2 [0, 8070450532247928832] rfl rfl).2

/-- Counterexample to C4 as stated: a source declaring `x:` twice, with
the malformed directive `.string "\x"` between the two declarations,
fails with the UnicodeDecodeError of the truncated escape — not with
DuplicateLabel — because Pass 1 raises at the directive before it reaches
the second declaration. -/
theorem claim_c4_counterexample :
    ¬ (sourceLabelNames ((["x:", ".string \"\\x\"", "x:"].map String.toList).map
        stripComment)).Nodup ∧
      first_pass ((["x:", ".string \"\\x\"", "x:"].map String.toList).map stripComment) =
        .error .unicodeError ∧
      AsmErr.unicodeError ≠ AsmErr.duplicateLabel :=
  ⟨by decide, rfl, by decide⟩

/-- C4 (amended): for every source declaring the same label name twice,
the run fails during Pass 1 — with DuplicateLabel, unless a malformed
string-directive escape raises its UnicodeDecodeError first; these are the
only two errors Pass 1 can raise — and in either case the pipeline
produces no output, `write_rom` never being reached. -/
theorem claim_c4_duplicateLabel (srcLines : List (List Char)) (padArg : Nat)
    (h : ¬ (sourceLabelNames (srcLines.map stripComment)).Nodup) :
    (first_pass (srcLines.map stripComment) = .error .duplicateLabel ∨
        first_pass (srcLines.map stripComment) = .error .unicodeError) ∧
      mainAssemble srcLines padArg = none := by
  cases hr : first_pass (srcLines.map stripComment) with
  | error e =>
    have he := firstPassAux_error (srcLines.map stripComment) 0 [] [] e hr
    refine ⟨?_, by simp [mainAssemble, hr]⟩
    rcases he with he | he
    · subst he
      exact Or.inl rfl
    · subst he
      exact Or.inr rfl
  | ok r =>
    exfalso
    have hn : (sourceLabelNames (srcLines.map stripComment)).Nodup := by
      simpa using firstPassAux_nodup (srcLines.map stripComment) 0 [] [] r hr (by simp)
    exact h hn

/-- Witness for C4 (amended) on a source declaring `L:` twice (the second
time behind a comment suffix); this clean source takes the DuplicateLabel
disjunct. -/
theorem claim_c4_duplicateLabel_witness :
    ¬ (sourceLabelNames ((["L:", "NOP", "L: ; again"].map String.toList).map
        stripComment)).Nodup ∧
      ((first_pass ((["L:", "NOP", "L: ; again"].map String.toList).map stripComment) =
            .error .duplicateLabel ∨
          first_pass ((["L:", "NOP", "L: ; again"].map String.toList).map stripComment) =
            .error .unicodeError) ∧
        mainAssemble (["L:", "NOP", "L: ; again"].map String.toList) 0 = none) := by
  have h : ¬ (sourceLabelNames ((["L:", "NOP", "L: ; again"].map String.toList).map
      stripComment)).Nodup := by decide
  exact ⟨h, claim_c4_duplicateLabel (["L:", "NOP", "L: ; again"].map String.toList) 0 h⟩

/-- Counterexample to C6 as stated: for the content `\x` — a truncated
escape — both directives raise the UnicodeDecodeError and produce no
emission units at all, so `.asciz "\x"` does not produce one more
ByteEmit unit (nor two more words) than `.string "\x"`. -/
theorem claim_c6_counterexample :
    unescapeString "\\x".toList = none ∧
      first_pass [stringDirLine false "\\x".toList] = .error .unicodeError ∧
      first_pass [stringDirLine true "\\x".toList] = .error .unicodeError :=
  ⟨rfl, rfl, rfl⟩

/-- C6 (amended): for every quoted content whose escape sequences decode
successfully (`unescape_string` raises otherwise, failing both directives
alike), the `.asciz` directive produces in Pass 1 exactly one more BYTE
unit than `.string` with identical content — the extra unit carrying the
NUL character — and exactly two more output words after Pass 2. -/
theorem claim_c6_ascizExtraNul (s txt : List Char) (h : '\n' ∉ s)
    (hdec : unescapeString s = some txt) :
    ∃ us pcEnd ws,
      first_pass [stringDirLine false s] = .ok (us, [], pcEnd) ∧
      first_pass [stringDirLine true s] =
          .ok (us ++ [(EUnit.BYTE '\x00', pcEnd)], [], pcEnd + 2) ∧
      second_pass (us.map Prod.fst) [] = .ok ws ∧
      second_pass ((us ++ [(EUnit.BYTE '\x00', pcEnd)]).map Prod.fst) [] =
          .ok (ws ++ [emit_inst_word 0x3 0 0 0, emit_inst_word 0x5 0 0 0xFF]) ∧
      (ws ++ [emit_inst_word 0x3 0 0 0, emit_inst_word 0x5 0 0 0xFF]).length = ws.length + 2 := by
  have hie : ∀ k, (stringDirLine k s).isEmpty = false := by
    intro k
    rw [stringDirLine_shape]
    rfl
  refine ⟨(expandStr txt 0).1, (expandStr txt 0).2,
    txt.flatMap (fun c => [emit_inst_word 0x3 0 0 c.toNat, emit_inst_word 0x5 0 0 0xFF]),
    ?_, ?_, ?_, ?_, ?_⟩
  · show firstPassAux [stringDirLine false s] 0 [] [] = _
    simp [firstPassAux, pyStrip_stringDirLine, hie, labelParse_stringDirLine,
      stringDirParse_mk false s h, hdec]
  · show firstPassAux [stringDirLine true s] 0 [] [] = _
    simp [firstPassAux, pyStrip_stringDirLine, hie, labelParse_stringDirLine,
      stringDirParse_mk true s h, hdec]
  · show secondPassAux [] ((expandStr txt 0).1.map Prod.fst) [] 0 = _
    rw [expandStr_fst]
    simpa using secondPassAux_bytes [] txt [] 0
  · have hm : ((expandStr txt 0).1 ++
        [(EUnit.BYTE '\x00', (expandStr txt 0).2)]).map Prod.fst =
        (txt ++ ['\x00']).map EUnit.BYTE := by
      simp [List.map_append, expandStr_fst]
    show secondPassAux [] (((expandStr txt 0).1 ++
        [(EUnit.BYTE '\x00', (expandStr txt 0).2)]).map Prod.fst) [] 0 = _
    rw [hm, secondPassAux_bytes]
    simp [List.flatMap_append]
  · simp

/-- Witness for C6 (amended) at content `hi`, which decodes to itself. -/
theorem claim_c6_ascizExtraNul_witness :
    '\n' ∉ "hi".toList ∧ unescapeString "hi".toList = some "hi".toList ∧
      (∃ us pcEnd ws,
        first_pass [stringDirLine false "hi".toList] = .ok (us, [], pcEnd) ∧
        first_pass [stringDirLine true "hi".toList] =
            .ok (us ++ [(EUnit.BYTE '\x00', pcEnd)], [], pcEnd + 2) ∧
        second_pass (us.map Prod.fst) [] = .ok ws ∧
        second_pass ((us ++ [(EUnit.BYTE '\x00', pcEnd)]).map Prod.fst) [] =
            .ok (ws ++ [emit_inst_word 0x3 0 0 0, emit_inst_word 0x5 0 0 0xFF]) ∧
        (ws ++ [emit_inst_word 0x3 0 0 0, emit_inst_word 0x5 0 0 0xFF]).length =
          ws.length + 2) :=
  ⟨by decide, rfl, claim_c6_ascizExtraNul "hi".toList "hi".toList (by decide) rfl⟩

/-- Counterexample to C8 as stated: the token `-5` is not a string of
decimal digits, is not `0x`/`0X`-prefixed and does not end in `b`, yet
`parse_imm` accepts it with value −5 (Python `int` accepts a sign). -/
theorem claim_c8_counterexample :
    parse_imm ['-', '5'] = .ok (-5) ∧ (['-', '5'].all isDecDigit) = false ∧
      startsWith0x ['-', '5'] = false ∧ ¬ (['-', '5'].getLast? = some 'b') :=
  ⟨rfl, rfl, rfl, by simp⟩

/-- C8 (amended): parsing an immediate token succeeds exactly when the
stripped token is a `0x`/`0X`-prefixed hexadecimal literal, a `b`-suffixed
(optionally signed, optionally `0b`/`0B`-prefixed) binary literal, or an
optionally signed decimal literal — underscore digit grouping included —
and every other token fails with the InvalidImmediate ValueError. -/
theorem claim_c8_immediateGrammar (s : List Char) :
    match parse_imm s with
    | .ok _ => acceptedImmTok s = true
    | .error e => acceptedImmTok s = false ∧ e = .badValue := by
  have finish : ∀ (p : Option Int) (g : Bool), p.isSome = g →
      (match (match p with
          | some v => (Except.ok v : Except AsmErr Int)
          | none => Except.error AsmErr.badValue) with
        | .ok _ => g = true
        | .error e => g = false ∧ e = .badValue) := by
    intro p g hpg
    cases p with
    | some v => simpa using hpg.symm
    | none => exact ⟨by simpa using hpg.symm, rfl⟩
  have hhex : ∀ (t : List Char), startsWith0x t = true →
      (pythonInt isHexDigit 16 (some ('x', 'X')) t).isSome =
        grammarAfterMark isHexDigit (t.drop 2) := by
    intro t h0
    cases t with
    | nil => simp [startsWith0x] at h0
    | cons a rest =>
      cases rest with
      | nil => simp [startsWith0x] at h0
      | cons c rest2 =>
        simp only [startsWith0x, Bool.and_eq_true, Bool.or_eq_true, decide_eq_true_eq] at h0
        obtain ⟨ha, hc⟩ := h0
        subst ha
        rcases hc with h | h <;> subst h <;>
          · show ((digitRunAfterMark isHexDigit 16 rest2).map (fun n => Int.ofNat n)).isSome =
              grammarAfterMark isHexDigit rest2
            rw [Option.isSome_map']
            exact digitRunAfterMark_isSome isHexDigit (by decide) 16 rest2
  simp only [parse_imm, acceptedImmTok]
  by_cases h0 : startsWith0x (pyStrip s) = true
  · rw [if_pos h0, if_pos h0]
    exact finish _ _ (hhex (pyStrip s) h0)
  · rw [if_neg h0, if_neg h0]
    by_cases h1 : (pyStrip s).getLast? = some 'b'
    · rw [if_pos h1, if_pos h1]
      exact finish _ _ (pythonInt_isSome isBinDigit 2 (some ('b', 'B'))
        (grammarMarked isBinDigit 'b' 'B')
        (fun u => pyIntNum_isSome_mark isBinDigit (by decide) 2 'b' 'B' u)
        (pyStrip s).dropLast)
    · rw [if_neg h1, if_neg h1]
      exact finish _ _ (pythonInt_isSome isDecDigit 10 none (grammarRun isDecDigit)
        (fun u => pyIntNum_isSome_none isDecDigit (by decide) 10 u) (pyStrip s))

/-- C2: for every opcode in 0..15, rd in 0..7, rs in 0..7 and immediate in
0..65535, extracting the bit fields of the word produced by
`emit_inst_word` per the profile layout (opcode at bits 63:60, rd at
59:57, rs at 56:54, immediate in the low 16 bits) recovers exactly the
original opcode, rd, rs and immediate. -/
theorem claim_c2_roundTrip (opcode rd rs imm16 : Nat) (ho : opcode < 16) (hr : rd < 8)
    (hs : rs < 8) (hi : imm16 < 65536) :
    decodeOpcode (emit_inst_word opcode rd rs imm16) = opcode ∧
      decodeRd (emit_inst_word opcode rd rs imm16) = rd ∧
      decodeRs (emit_inst_word opcode rd rs imm16) = rs ∧
      decodeImm (emit_inst_word opcode rd rs imm16) = imm16 := by
  rw [decodeOpcode_emit, decodeRd_emit, decodeRs_emit, decodeImm_emit]
  exact ⟨Nat.mod_eq_of_lt ho, Nat.mod_eq_of_lt hr, Nat.mod_eq_of_lt hs, Nat.mod_eq_of_lt hi⟩

/-- Witness for C2 at opcode 3, rd 1, rs 2, immediate 5. -/
theorem claim_c2_roundTrip_witness :
    3 < 16 ∧ 1 < 8 ∧ 2 < 8 ∧ 5 < 65536 ∧
      (decodeOpcode (emit_inst_word 3 1 2 5) = 3 ∧ decodeRd (emit_inst_word 3 1 2 5) = 1 ∧
        decodeRs (emit_inst_word 3 1 2 5) = 2 ∧ decodeImm (emit_inst_word 3 1 2 5) = 5) :=
  ⟨by norm_num, by norm_num, by norm_num, by norm_num,
    claim_c2_roundTrip 3 1 2 5 (by norm_num) (by norm_num) (by norm_num) (by norm_num)⟩

/-- C9: the ROM writer appends nothing when the pad target is at most the
emitted word count (and never truncates), and appends exactly pad minus
emitted zero-valued words when the target exceeds the emitted count. -/
theorem claim_c9_padding (ws : List Nat) (p : Nat) :
    (p ≤ ws.length → write_rom ws (some p) = ws) ∧
      (ws.length < p → write_rom ws (some p) = ws ++ List.replicate (p - ws.length) 0) := by
  constructor
  · intro h
    unfold write_rom
    by_cases h0 : p = 0
    · simp [h0]
    · simp [h0, Nat.not_lt.mpr h]
  · intro h
    unfold write_rom
    have h0 : p ≠ 0 := by omega
    simp [h0, h]

/-- Witness for C9 on a two-word program with pad targets 1 and 4. -/
theorem claim_c9_padding_witness :
    (1 ≤ 2 ∧ write_rom [10, 20] (some 1) = [10, 20]) ∧
      (2 < 4 ∧ write_rom [10, 20] (some 4) = [10, 20] ++ List.replicate 2 0) :=
  ⟨⟨by norm_num, (claim_c9_padding [10, 20] 1).1 (by norm_num)⟩,
    ⟨by norm_num, by simpa using (claim_c9_padding [10, 20] 4).2 (by norm_num)⟩⟩

/-- C5: a label resolved to word address `a`, used as the target operand
of a `JMP` instruction, contributes only its low 8 bits: the encoded word
carries `a &&& 0xFF`, whose immediate field is `a mod 256` (44 when
`a = 300`, as the witness instantiates). -/
theorem claim_c5_jmpTruncation (t : List Char) (labels : List (List Char × Nat)) (a : Nat)
    (h : labels.lookup t = some a) :
    encodeParts [['J', 'M', 'P'], t] labels = .ok (emit_inst_word 7 0 0 (a &&& 255)) ∧
      decodeImm (emit_inst_word 7 0 0 (a &&& 255)) = a % 256 := by
  have e : encodeParts [['J', 'M', 'P'], t] labels =
      (match labels.lookup t with
        | some a => Except.ok (emit_inst_word 7 0 0 (a &&& 255))
        | none =>
          (parse_imm t).bind fun d => Except.ok (emit_inst_word 7 0 0 (immTrunc 256 d))) := rfl
  constructor
  · rw [e, h]
  · rw [decodeImm_emit, and_mask_255]
    omega

/-- Witness for C5: a label table resolving `loop` to word address 300
gives a `JMP loop` immediate field of 44 = 300 mod 256. -/
theorem claim_c5_jmpTruncation_witness :
    List.lookup "loop".toList [("loop".toList, 300)] = some 300 ∧
      encodeParts [['J', 'M', 'P'], "loop".toList] [("loop".toList, 300)] =
        .ok (emit_inst_word 7 0 0 (300 &&& 255)) ∧
      decodeImm (emit_inst_word 7 0 0 (300 &&& 255)) = 44 := by
  have h : List.lookup "loop".toList [("loop".toList, 300)] = some 300 := rfl
  have hc := claim_c5_jmpTruncation "loop".toList [("loop".toList, 300)] 300 h
  exact ⟨h, hc.1, by rw [hc.2]⟩

/-- Counterexample to C3 as stated: the line `ADD r1` supplies one operand
where two are required, and assembly fails with the IndexError of the
out-of-range `parts[2]` access — not with any explicit operand-count
(ArityMismatch) check, which the program does not contain. -/
theorem claim_c3_counterexample :
    second_pass [EUnit.INST "ADD r1".toList] [] = .error .indexError := rfl

/-- C3 (amended): an instruction supplying fewer operands than its
mnemonic requires fails, but through the out-of-range positional `parts`
access (IndexError) — here each table mnemonic with no operands, and each
two-operand form given one valid register operand. -/
theorem claim_c3_missingOperands (labels : List (List Char × Nat)) (r : List Char) (n : Nat)
    (h : regnum r = .ok n) :
    encodeParts [['A', 'D', 'D']] labels = .error .indexError ∧
      encodeParts [['S', 'U', 'B']] labels = .error .indexError ∧
      encodeParts [['L', 'I']] labels = .error .indexError ∧
      encodeParts [['L', 'D']] labels = .error .indexError ∧
      encodeParts [['S', 'T']] labels = .error .indexError ∧
      encodeParts [['J', 'Z']] labels = .error .indexError ∧
      encodeParts [['J', 'M', 'P']] labels = .error .indexError ∧
      encodeParts [['S', 'H', 'L']] labels = .error .indexError ∧
      encodeParts [['A', 'D', 'D'], r] labels = .error .indexError ∧
      encodeParts [['S', 'U', 'B'], r] labels = .error .indexError ∧
      encodeParts [['L', 'I'], r] labels = .error .indexError ∧
      encodeParts [['L', 'D'], r] labels = .error .indexError ∧
      encodeParts [['S', 'T'], r] labels = .error .indexError ∧
      encodeParts [['J', 'Z'], r] labels = .error .indexError ∧
      encodeParts [['S', 'H', 'L'], r] labels = .error .indexError := by
  refine ⟨rfl, rfl, rfl, rfl, rfl, rfl, rfl, rfl, ?_, ?_, ?_, ?_, ?_, ?_, ?_⟩ <;>
    · show (regnum r).bind (fun _ => (Except.error AsmErr.indexError : Except AsmErr Nat)) =
        Except.error AsmErr.indexError
      rw [h]
      rfl

/-- Witness for C3 (amended) at the valid register operand `r1`. -/
theorem claim_c3_missingOperands_witness :
    regnum "r1".toList = .ok 1 ∧
      encodeParts [['A', 'D', 'D'], "r1".toList] [] = .error .indexError :=
  ⟨rfl, (claim_c3_missingOperands [] "r1".toList 1 rfl).2.2.2.2.2.2.2.2.1⟩

/-- C7 (amended): a `BYTE ch` unit makes Pass 2 emit exactly two words, in
order — a load-immediate word with opcode 0x3, rd 0 and immediate
`ord(ch) mod 2^16`, then a store word with opcode 0x5, rd 0 and immediate
0xFF — and advance `pc` by 2. -/
theorem claim_c7_byteLowering (labels : List (List Char × Nat)) (ch : Char) (rest : List EUnit)
    (out : List Nat) (pc : Nat) :
    secondPassAux labels (.BYTE ch :: rest) out pc =
        secondPassAux labels rest
          (out ++ [emit_inst_word 3 0 0 ch.toNat, emit_inst_word 5 0 0 255]) (pc + 2) ∧
      decodeOpcode (emit_inst_word 3 0 0 ch.toNat) = 3 ∧
      decodeRd (emit_inst_word 3 0 0 ch.toNat) = 0 ∧
      decodeImm (emit_inst_word 3 0 0 ch.toNat) = ch.toNat % 65536 ∧
      decodeOpcode (emit_inst_word 5 0 0 255) = 5 ∧
      decodeRd (emit_inst_word 5 0 0 255) = 0 ∧
      decodeImm (emit_inst_word 5 0 0 255) = 255 := by
  refine ⟨rfl, ?_, ?_, ?_, ?_, ?_, ?_⟩ <;>
    simp [decodeOpcode_emit, decodeRd_emit, decodeImm_emit]

/-- Counterexample to C7 as stated: for the character U+10000 (code point
65536, reachable in the source language through a `\Uxxxxxxxx` escape) the
immediate field of the emitted load word is 0, not `ord(ch)`. -/
theorem claim_c7_counterexample :
    Char.toNat (Char.ofNat 65536) = 65536 ∧
      decodeImm (emit_inst_word 3 0 0 (Char.toNat (Char.ofNat 65536))) = 0 := by
  exact ⟨by decide, by decide⟩

end Assembler
